import Mathlib

/-!
Verification of the nipl lexer (src/token/token.rs, src/utils/mod.rs,
src/lexer/lexer.rs).

The Rust code is embedded shallowly: the lexer state is a structure with the
same four fields, `read_char`/`peek_char`/`eat_whitespace` are translated
directly, and the two scanning loops (`read_identifier`, `read_digit`) are
translated as fuelled recursions (the fuel `input.length + 1 - position`
bounds the number of loop iterations, since every iteration advances the
cursor by one; running out of fuel returns the state reached so far, which
never happens from a well-formed state).  Rust panics — `Option::unwrap` /
`Option::expect` on `None` — are modelled as `none` results, so a function
returning `none` corresponds to the Rust program aborting.
-/

namespace Nipl

/-- Token categories, from the `TokenType` enum in src/token/token.rs.
`Ident` and `Int` carry their literal text exactly as in the source. -/
inductive TokenType where
  | Illegal
  | EOF
  | Ident (s : String)
  | Int (s : String)
  | Assign
  | Plus
  | Bang
  | Minus
  | Slash
  | Asterisk
  | LT
  | GT
  | Eq
  | NotEq
  | LTE
  | GTE
  | Comma
  | Semicolon
  | LParen
  | RParen
  | LBrace
  | RBrace
  | Let
  | Function
  | If
  | Else
  | Return
  | True
  | False
  deriving DecidableEq, Repr

/-- A token: category plus literal text, from `Token` in src/token/token.rs.
`Token::new(kind, stringer)` stringifies its second argument, so call sites
passing a single `char` are embedded with a one-character string. -/
structure Token where
  kind : TokenType
  literal : String
  deriving DecidableEq, Repr

/-- `is_letter_or_underscore` from src/utils/mod.rs. -/
def is_letter_or_underscore (ch : Char) : Bool :=
  (decide ('a' ≤ ch) && decide (ch ≤ 'z')) ||
  (decide ('A' ≤ ch) && decide (ch ≤ 'Z')) ||
  (ch == '_')

/-- `is_digit` from src/utils/mod.rs. -/
def is_digit (ch : Char) : Bool :=
  decide ('0' ≤ ch) && decide (ch ≤ '9')

/-- The lexer state, from the `Lexer` struct in src/lexer/lexer.rs:
the input as a character sequence, the current position, the read (lookahead)
position, and the optional current character. -/
structure Lexer where
  input : List Char
  position : Nat
  read_position : Nat
  current_char : Option Char
  deriving DecidableEq, Repr

/-- The bounds-checked index used by `Lexer::peek_char`:
`if i < len { Some(input[i]) } else { None }`. -/
def charAt (input : List Char) (i : Nat) : Option Char :=
  if h : i < input.length then some (input.get ⟨i, h⟩) else none

/-- `Lexer::peek_char`: the character at `read_position`, or `None` past the
end of the input. -/
def peek_char (l : Lexer) : Option Char :=
  charAt l.input l.read_position

/-- `Lexer::read_char`: set `current_char` to the peeked character, then
advance `position` to `read_position` and increment `read_position`. -/
def read_char (l : Lexer) : Lexer :=
  { l with
    current_char := peek_char l
    position := l.read_position
    read_position := l.read_position + 1 }

/-- `Lexer::new`: fields start at zero with no current character, then one
`read_char` points the cursor at the first character. -/
def Lexer.new (input : String) : Lexer :=
  read_char { input := input.data, position := 0, read_position := 0, current_char := none }

/-- The whitespace set matched by `Lexer::eat_whitespace`:
space, tab, newline, carriage return. -/
def is_whitespace (c : Char) : Bool :=
  c == ' ' || c == '\t' || c == '\n' || c == '\r'

/-- The `while let` loop of `Lexer::eat_whitespace`, with explicit fuel. -/
def eat_whitespaceAux : Nat → Lexer → Lexer
  | 0, l => l
  | fuel + 1, l =>
    match l.current_char with
    | some c => if is_whitespace c then eat_whitespaceAux fuel (read_char l) else l
    | none => l

/-- `Lexer::eat_whitespace`: skip whitespace characters; each iteration
advances the cursor, so `input.length + 1 - position` iterations suffice. -/
def eat_whitespace (l : Lexer) : Lexer :=
  eat_whitespaceAux (l.input.length + 1 - l.position) l

/-- The shared `while` loop of `Lexer::read_identifier` and
`Lexer::read_digit`: the loop condition is `pred(current_char.unwrap())`, so
reaching the end of the input (`current_char == None`) inside the loop is an
`unwrap` panic, modelled as `none`. -/
def read_loopAux (pred : Char → Bool) : Nat → Lexer → Option Lexer
  | 0, l => some l
  | fuel + 1, l =>
    match l.current_char with
    | none => none
    | some c => if pred c then read_loopAux pred fuel (read_char l) else some l

/-- The common shape of `Lexer::read_identifier` / `Lexer::read_digit`: run
the loop, then slice `input[current_position..position]` as the literal. -/
def read_loop (pred : Char → Bool) (l : Lexer) : Option (String × Lexer) :=
  match read_loopAux pred (l.input.length + 1 - l.position) l with
  | none => none
  | some l2 => some (String.mk ((l.input.drop l.position).take (l2.position - l.position)), l2)

/-- `Lexer::read_identifier`: read while `is_letter_or_underscore` holds. -/
def read_identifier (l : Lexer) : Option (String × Lexer) :=
  read_loop is_letter_or_underscore l

/-- `Lexer::read_digit`: read while `is_digit` holds. -/
def read_digit (l : Lexer) : Option (String × Lexer) :=
  read_loop is_digit l

/-- `Lexer::lookup_identifier`: the keyword table. -/
def lookup_identifier (s : String) : TokenType :=
  match s with
  | "let" => TokenType.Let
  | "fn" => TokenType.Function
  | "if" => TokenType.If
  | "else" => TokenType.Else
  | "return" => TokenType.Return
  | "true" => TokenType.True
  | "false" => TokenType.False
  | _ => TokenType.Ident s

/-- `Lexer::check_two_char_token_eq`: if the peeked character (defaulting to
NUL past the end) is `=`, consume it and produce the doubled variant with the
two-character literal; otherwise produce the single variant with the current
character.  The `expect` calls on `current_char` are modelled as `none` when
the option is empty. -/
def check_two_char_token_eq (l : Lexer) (single_kind double_kind : TokenType) :
    Option (Token × Lexer) :=
  if (peek_char l).getD (Char.ofNat 0) == '=' then
    match l.current_char with
    | none => none
    | some curr =>
      let l2 := read_char l
      match l2.current_char with
      | none => none
      | some c2 => some (⟨double_kind, String.mk [curr, c2]⟩, l2)
  else
    match l.current_char with
    | none => none
    | some c => some (⟨single_kind, String.mk [c]⟩, l)

/-- The trailing `self.read_char()` of `Lexer::next_token`, applied to the
result of the arms that do not return early. -/
def after_read : Option (Token × Lexer) → Option (Token × Lexer)
  | none => none
  | some (t, l) => some (t, read_char l)

/-- `Lexer::next_token`: skip whitespace; on exhaustion return `EOF` with the
NUL literal; otherwise dispatch on the current character.  The fixed
single/two-character arms fall through to the trailing `read_char`; the `EOF`
case and the default (identifier / digit / illegal) arm return early without
it — in particular the `Illegal` case returns with the cursor unmoved, and a
letter or digit run that reaches the end of the input panics inside
`read_identifier` / `read_digit` (modelled as `none`). -/
def next_token (l0 : Lexer) : Option (Token × Lexer) :=
  let l := eat_whitespace l0
  match l.current_char with
  | none => some (⟨TokenType.EOF, String.mk [Char.ofNat 0]⟩, l)
  | some ch =>
    match ch with
    | '=' => after_read (check_two_char_token_eq l TokenType.Assign TokenType.Eq)
    | '!' => after_read (check_two_char_token_eq l TokenType.Bang TokenType.NotEq)
    | '<' => after_read (check_two_char_token_eq l TokenType.LT TokenType.LTE)
    | '>' => after_read (check_two_char_token_eq l TokenType.GT TokenType.GTE)
    | '+' => some (⟨TokenType.Plus, String.mk [ch]⟩, read_char l)
    | '-' => some (⟨TokenType.Minus, String.mk [ch]⟩, read_char l)
    | '/' => some (⟨TokenType.Slash, String.mk [ch]⟩, read_char l)
    | '*' => some (⟨TokenType.Asterisk, String.mk [ch]⟩, read_char l)
    | ';' => some (⟨TokenType.Semicolon, String.mk [ch]⟩, read_char l)
    | '(' => some (⟨TokenType.LParen, String.mk [ch]⟩, read_char l)
    | ')' => some (⟨TokenType.RParen, String.mk [ch]⟩, read_char l)
    | ',' => some (⟨TokenType.Comma, String.mk [ch]⟩, read_char l)
    | '\x7b' => some (⟨TokenType.LBrace, String.mk [ch]⟩, read_char l)
    | '\x7d' => some (⟨TokenType.RBrace, String.mk [ch]⟩, read_char l)
    | _ =>
      if is_letter_or_underscore ch then
        match read_identifier l with
        | none => none
        | some (s, l2) => some (⟨lookup_identifier s, s⟩, l2)
      else if is_digit ch then
        match read_digit l with
        | none => none
        | some (s, l2) => some (⟨TokenType.Int s, s⟩, l2)
      else
        some (⟨TokenType.Illegal, String.mk [ch]⟩, l)

/-- Repeatedly call `next_token`, collecting the first `n` tokens; `none`
when some call panics. -/
def next_tokens : Nat → Lexer → Option (List Token)
  | 0, _ => some []
  | n + 1, l =>
    match next_token l with
    | none => none
    | some (t, l2) =>
      match next_tokens n l2 with
      | none => none
      | some ts => some (t :: ts)

/-- The table of the ten fixed single-character arms of `next_token`
(character to token category), used to state the one-to-one correspondence
claims; characters outside the table are mapped to `Illegal`. -/
def single_char_kind (c : Char) : TokenType :=
  match c with
  | '+' => TokenType.Plus
  | '-' => TokenType.Minus
  | '/' => TokenType.Slash
  | '*' => TokenType.Asterisk
  | ';' => TokenType.Semicolon
  | '(' => TokenType.LParen
  | ')' => TokenType.RParen
  | ',' => TokenType.Comma
  | '\x7b' => TokenType.LBrace
  | '\x7d' => TokenType.RBrace
  | _ => TokenType.Illegal

/-- The single-character variants passed to `check_two_char_token_eq` by the
four comparison arms of `next_token`. -/
def cmp_single_kind (c : Char) : TokenType :=
  match c with
  | '=' => TokenType.Assign
  | '!' => TokenType.Bang
  | '<' => TokenType.LT
  | _ => TokenType.GT

/-- The doubled variants passed to `check_two_char_token_eq` by the four
comparison arms of `next_token`. -/
def cmp_double_kind (c : Char) : TokenType :=
  match c with
  | '=' => TokenType.Eq
  | '!' => TokenType.NotEq
  | '<' => TokenType.LTE
  | _ => TokenType.GTE

/-- The cursor well-formedness invariant stated in the design: the read
position is one past the current position, and `current_char` is exactly the
input character at `position` (so it is `none` exactly when the cursor has
moved past the end). -/
def WFLexer (l : Lexer) : Prop :=
  l.read_position = l.position + 1 ∧ l.current_char = charAt l.input l.position

instance (l : Lexer) : Decidable (WFLexer l) := by
  unfold WFLexer
  infer_instance

/-- The lexer state whose cursor sits at position `p` of `input`; every
well-formed state has this shape. -/
def lexerAt (input : List Char) (p : Nat) : Lexer :=
  ⟨input, p, p + 1, charAt input p⟩

lemma wf_read_char (l : Lexer) : WFLexer (read_char l) := ⟨rfl, rfl⟩

lemma wf_new (s : String) : WFLexer (Lexer.new s) := wf_read_char _

lemma charAt_some_lt {input : List Char} {i : Nat} {c : Char}
    (h : charAt input i = some c) : i < input.length := by
  by_contra hge
  simp [charAt, dif_neg hge] at h

lemma wf_eq_lexerAt {l : Lexer} (h : WFLexer l) : l = lexerAt l.input l.position := by
  obtain ⟨h1, h2⟩ := h
  cases l
  simp_all [lexerAt]

lemma read_char_lexerAt (input : List Char) (p : Nat) :
    read_char (lexerAt input p) = lexerAt input (p + 1) := rfl

lemma eat_whitespaceAux_none {l : Lexer} (h : l.current_char = none) :
    ∀ fuel, eat_whitespaceAux fuel l = l := by
  intro fuel
  cases fuel with
  | zero => rfl
  | succ n => simp [eat_whitespaceAux, h]

lemma eat_whitespace_none {l : Lexer} (h : l.current_char = none) :
    eat_whitespace l = l :=
  eat_whitespaceAux_none h _

lemma eat_whitespace_nonws {l : Lexer} {c : Char} (hwf : WFLexer l)
    (hc : l.current_char = some c) (hns : is_whitespace c = false) :
    eat_whitespace l = l := by
  have hlt : l.position < l.input.length := charAt_some_lt (hwf.2 ▸ hc)
  have hfuel : l.input.length + 1 - l.position = (l.input.length - l.position) + 1 := by
    omega
  unfold eat_whitespace
  rw [hfuel]
  simp [eat_whitespaceAux, hc, hns]

/-- Produce-next-token on an exhausted cursor: `EOF` with the NUL literal and
the state untouched. -/
lemma next_token_exhausted {l : Lexer} (h : l.current_char = none) :
    next_token l = some (⟨TokenType.EOF, String.mk [Char.ofNat 0]⟩, l) := by
  simp only [next_token, eat_whitespace_none h, h]

lemma charAt_eq_getD {input : List Char} {i : Nat} (h : i < input.length) :
    charAt input i = some (input.getD i (Char.ofNat 0)) := by
  unfold charAt
  rw [dif_pos h, List.getD_eq_getElem input (Char.ofNat 0) h]
  rfl

lemma letter_not_ws {c : Char} (h : is_letter_or_underscore c = true) :
    is_whitespace c = false := by
  rcases hws : is_whitespace c with _ | _
  · rfl
  · exfalso
    simp only [is_whitespace, Bool.or_eq_true, beq_iff_eq] at hws
    rcases hws with ((rfl | rfl) | rfl) | rfl <;> exact absurd h (by decide)

lemma digit_not_ws {c : Char} (h : is_digit c = true) :
    is_whitespace c = false := by
  rcases hws : is_whitespace c with _ | _
  · rfl
  · exfalso
    simp only [is_whitespace, Bool.or_eq_true, beq_iff_eq] at hws
    rcases hws with ((rfl | rfl) | rfl) | rfl <;> exact absurd h (by decide)

lemma digit_not_letter {c : Char} (h : is_digit c = true) :
    is_letter_or_underscore c = false := by
  rcases hlt : is_letter_or_underscore c with _ | _
  · rfl
  · exfalso
    simp only [is_digit, Bool.and_eq_true, decide_eq_true_eq] at h
    simp only [is_letter_or_underscore, Bool.or_eq_true, Bool.and_eq_true,
      decide_eq_true_eq, beq_iff_eq] at hlt
    rcases hlt with (⟨h1, _⟩ | ⟨h3, _⟩) | rfl
    · exact absurd (le_trans h1 h.2) (by decide)
    · exact absurd (le_trans h3 h.2) (by decide)
    · exact absurd h (by decide)

lemma read_loopAux_run (pred : Char → Bool) :
    ∀ fuel p e input, input.length + 1 - p ≤ fuel → p ≤ e → e < input.length →
    (∀ i, i < e → p ≤ i → pred (input.getD i (Char.ofNat 0)) = true) →
    pred (input.getD e (Char.ofNat 0)) = false →
    read_loopAux pred fuel (lexerAt input p) = some (lexerAt input e) := by
  intro fuel
  induction fuel with
  | zero =>
    intro p e input hfuel hpe hel _ _
    omega
  | succ k ih =>
    intro p e input hfuel hpe hel hrun hmax
    have hplt : p < input.length := lt_of_le_of_lt hpe hel
    have hcc : (lexerAt input p).current_char = some (input.getD p (Char.ofNat 0)) :=
      charAt_eq_getD hplt
    rcases eq_or_lt_of_le hpe with heq | hlt
    · subst heq
      simp only [read_loopAux, hcc, hmax, Bool.false_eq_true, if_false]
    · have hp : pred (input.getD p (Char.ofNat 0)) = true := hrun p hlt le_rfl
      simp only [read_loopAux, hcc, hp, if_true]
      rw [read_char_lexerAt]
      exact ih (p + 1) e input (by omega) hlt hel (fun i hi hpi => hrun i hi (by omega)) hmax

lemma read_loop_run (pred : Char → Bool) (input : List Char) (p e : Nat)
    (hpe : p ≤ e) (hel : e < input.length)
    (hrun : ∀ i, i < e → p ≤ i → pred (input.getD i (Char.ofNat 0)) = true)
    (hmax : pred (input.getD e (Char.ofNat 0)) = false) :
    read_loop pred (lexerAt input p) =
      some (String.mk ((input.drop p).take (e - p)), lexerAt input e) := by
  unfold read_loop
  rw [read_loopAux_run pred
    ((lexerAt input p).input.length + 1 - (lexerAt input p).position)
    p e input le_rfl hpe hel hrun hmax]
  rfl

lemma next_token_default_letter {l : Lexer} {c : Char} (hwf : WFLexer l)
    (hc : l.current_char = some c) (hcl : is_letter_or_underscore c = true) :
    next_token l = (match read_identifier l with
      | none => none
      | some (s, l2) => some (⟨lookup_identifier s, s⟩, l2)) := by
  have heat : eat_whitespace l = l := eat_whitespace_nonws hwf hc (letter_not_ws hcl)
  simp only [next_token, heat, hc]
  split <;> try (exact absurd hcl (by decide))
  simp only [hcl, if_true]

lemma next_token_default_digit {l : Lexer} {c : Char} (hwf : WFLexer l)
    (hc : l.current_char = some c) (hcd : is_digit c = true) :
    next_token l = (match read_digit l with
      | none => none
      | some (s, l2) => some (⟨TokenType.Int s, s⟩, l2)) := by
  have heat : eat_whitespace l = l := eat_whitespace_nonws hwf hc (digit_not_ws hcd)
  simp only [next_token, heat, hc]
  split <;> try (exact absurd hcd (by decide))
  simp only [digit_not_letter hcd, Bool.false_eq_true, if_false, hcd, if_true]

lemma check_two_char_of_peek_eq {l : Lexer} {c : Char} (hc : l.current_char = some c)
    (hp : peek_char l = some '=') (sk dk : TokenType) :
    check_two_char_token_eq l sk dk = some (⟨dk, String.mk [c, '=']⟩, read_char l) := by
  simp only [check_two_char_token_eq, hp, hc, read_char, Option.getD_some]
  rfl

lemma check_two_char_of_peek_ne {l : Lexer} {c : Char} (hc : l.current_char = some c)
    (hp : peek_char l ≠ some '=') (sk dk : TokenType) :
    check_two_char_token_eq l sk dk = some (⟨sk, String.mk [c]⟩, l) := by
  have hcond : ((peek_char l).getD (Char.ofNat 0) == '=') = false := by
    cases hpk : peek_char l with
    | none => decide
    | some d =>
      have hd : d ≠ '=' := by
        intro hde
        exact hp (by rw [hpk, hde])
      simp [hd]
  simp only [check_two_char_token_eq, hcond, hc, Bool.false_eq_true, if_false]

lemma next_token_cmp_double {l : Lexer} {c : Char} (hwf : WFLexer l)
    (hc : l.current_char = some c) (hmem : c ∈ (['=', '!', '<', '>'] : List Char))
    (hp : peek_char l = some '=') :
    next_token l = some (⟨cmp_double_kind c, String.mk [c, '=']⟩, read_char (read_char l)) := by
  fin_cases hmem <;>
  · have heat : eat_whitespace l = l := eat_whitespace_nonws hwf hc (by decide)
    simp only [next_token, heat, hc, cmp_double_kind]
    rw [check_two_char_of_peek_eq hc hp]
    rfl

lemma next_token_cmp_single {l : Lexer} {c : Char} (hwf : WFLexer l)
    (hc : l.current_char = some c) (hmem : c ∈ (['=', '!', '<', '>'] : List Char))
    (hp : peek_char l ≠ some '=') :
    next_token l = some (⟨cmp_single_kind c, String.mk [c]⟩, read_char l) := by
  fin_cases hmem <;>
  · have heat : eat_whitespace l = l := eat_whitespace_nonws hwf hc (by decide)
    simp only [next_token, heat, hc, cmp_single_kind]
    rw [check_two_char_of_peek_ne hc hp]
    rfl

lemma charAt_none_iff {input : List Char} {i : Nat} :
    charAt input i = none ↔ input.length ≤ i := by
  unfold charAt
  split <;> simp <;> omega

lemma read_char_mono {l : Lexer} (hwf : WFLexer l) :
    l.position ≤ (read_char l).position ∧ l.read_position ≤ (read_char l).read_position := by
  have h1 := hwf.1
  constructor <;> (simp [read_char]; try omega)

lemma eat_whitespaceAux_wf_mono :
    ∀ fuel (l : Lexer), WFLexer l →
    WFLexer (eat_whitespaceAux fuel l) ∧
    l.position ≤ (eat_whitespaceAux fuel l).position ∧
    l.read_position ≤ (eat_whitespaceAux fuel l).read_position := by
  intro fuel
  induction fuel with
  | zero => intro l h; exact ⟨h, le_rfl, le_rfl⟩
  | succ k ih =>
    intro l h
    cases hcc : l.current_char with
    | none =>
      simp only [eat_whitespaceAux, hcc]
      exact ⟨h, le_rfl, le_rfl⟩
    | some c =>
      by_cases hws : is_whitespace c = true
      · simp only [eat_whitespaceAux, hcc, hws, if_true]
        obtain ⟨h1, h2, h3⟩ := ih (read_char l) (wf_read_char l)
        have hm := read_char_mono h
        exact ⟨h1, le_trans hm.1 h2, le_trans hm.2 h3⟩
      · have hwf2 : is_whitespace c = false := by
          revert hws
          cases is_whitespace c <;> simp
        simp only [eat_whitespaceAux, hcc, hwf2, Bool.false_eq_true, if_false]
        exact ⟨h, le_rfl, le_rfl⟩

lemma eat_whitespace_wf_mono (l : Lexer) (h : WFLexer l) :
    WFLexer (eat_whitespace l) ∧
    l.position ≤ (eat_whitespace l).position ∧
    l.read_position ≤ (eat_whitespace l).read_position :=
  eat_whitespaceAux_wf_mono _ l h

lemma read_loopAux_wf_mono (pred : Char → Bool) :
    ∀ fuel (l l2 : Lexer), WFLexer l → read_loopAux pred fuel l = some l2 →
    WFLexer l2 ∧ l.position ≤ l2.position ∧ l.read_position ≤ l2.read_position := by
  intro fuel
  induction fuel with
  | zero =>
    intro l l2 h heq
    injection heq with heq2
    subst heq2
    exact ⟨h, le_rfl, le_rfl⟩
  | succ k ih =>
    intro l l2 h heq
    cases hcc : l.current_char with
    | none =>
      simp only [read_loopAux, hcc] at heq
      exact Option.noConfusion heq
    | some c =>
      by_cases hp : pred c = true
      · simp only [read_loopAux, hcc, hp, if_true] at heq
        obtain ⟨h1, h2, h3⟩ := ih (read_char l) l2 (wf_read_char l) heq
        have hm := read_char_mono h
        exact ⟨h1, le_trans hm.1 h2, le_trans hm.2 h3⟩
      · have hpf : pred c = false := by
          revert hp
          cases pred c <;> simp
        simp only [read_loopAux, hcc, hpf, Bool.false_eq_true, if_false,
          Option.some.injEq] at heq
        subst heq
        exact ⟨h, le_rfl, le_rfl⟩

lemma read_loop_wf_mono {pred : Char → Bool} {l l2 : Lexer} {s : String}
    (h : WFLexer l) (heq : read_loop pred l = some (s, l2)) :
    WFLexer l2 ∧ l.position ≤ l2.position ∧ l.read_position ≤ l2.read_position := by
  unfold read_loop at heq
  cases haux : read_loopAux pred (l.input.length + 1 - l.position) l with
  | none => rw [haux] at heq; cases heq
  | some l3 =>
    rw [haux] at heq
    simp only [Option.some.injEq, Prod.mk.injEq] at heq
    obtain ⟨-, rfl⟩ := heq
    exact read_loopAux_wf_mono pred _ l l3 h haux

lemma after_read_check_wf_mono {l l2 : Lexer} {sk dk : TokenType} {t : Token}
    (hwf : WFLexer l)
    (heq : after_read (check_two_char_token_eq l sk dk) = some (t, l2)) :
    WFLexer l2 ∧ l.position ≤ l2.position ∧ l.read_position ≤ l2.read_position := by
  have hdisj : ∀ t3 l3, check_two_char_token_eq l sk dk = some (t3, l3) →
      l3 = l ∨ l3 = read_char l := by
    intro t3 l3 hch
    unfold check_two_char_token_eq at hch
    by_cases hcond : ((peek_char l).getD (Char.ofNat 0) == '=') = true
    · rw [if_pos hcond] at hch
      cases hcc : l.current_char with
      | none => rw [hcc] at hch; cases hch
      | some c =>
        rw [hcc] at hch
        cases hc2 : (read_char l).current_char with
        | none => simp only [hc2] at hch; cases hch
        | some c2 =>
          simp only [hc2, Option.some.injEq, Prod.mk.injEq] at hch
          exact Or.inr hch.2.symm
    · rw [if_neg hcond] at hch
      cases hcc : l.current_char with
      | none => rw [hcc] at hch; cases hch
      | some c =>
        rw [hcc] at hch
        simp only [Option.some.injEq, Prod.mk.injEq] at hch
        exact Or.inl hch.2.symm
  cases hch : check_two_char_token_eq l sk dk with
  | none => rw [hch] at heq; cases heq
  | some r =>
    obtain ⟨t3, l3⟩ := r
    rw [hch] at heq
    simp only [after_read, Option.some.injEq, Prod.mk.injEq] at heq
    obtain ⟨-, rfl⟩ := heq
    rcases hdisj t3 l3 hch with rfl | rfl
    · exact ⟨wf_read_char _, (read_char_mono hwf).1, (read_char_mono hwf).2⟩
    · have hm1 := read_char_mono hwf
      have hm2 := read_char_mono (wf_read_char l)
      exact ⟨wf_read_char _, le_trans hm1.1 hm2.1, le_trans hm1.2 hm2.2⟩

lemma next_token_wf_mono {l l2 : Lexer} {t : Token} (hwf : WFLexer l)
    (heq : next_token l = some (t, l2)) :
    WFLexer l2 ∧ l.position ≤ l2.position ∧ l.read_position ≤ l2.read_position := by
  obtain ⟨hw1, hm1, hm2⟩ := eat_whitespace_wf_mono l hwf
  simp only [next_token] at heq
  cases hcc : (eat_whitespace l).current_char with
  | none =>
    simp only [hcc, Option.some.injEq, Prod.mk.injEq] at heq
    obtain ⟨-, rfl⟩ := heq
    exact ⟨hw1, hm1, hm2⟩
  | some ch =>
    simp only [hcc] at heq
    have hstep : ∀ kind : TokenType,
        (some (⟨kind, String.mk [ch]⟩, read_char (eat_whitespace l)) :
          Option (Token × Lexer)) = some (t, l2) →
        WFLexer l2 ∧ l.position ≤ l2.position ∧ l.read_position ≤ l2.read_position := by
      intro kind hk
      simp only [Option.some.injEq, Prod.mk.injEq] at hk
      obtain ⟨-, rfl⟩ := hk
      have hm := read_char_mono hw1
      exact ⟨wf_read_char _, le_trans hm1 hm.1, le_trans hm2 hm.2⟩
    have hcmp : ∀ sk dk : TokenType,
        after_read (check_two_char_token_eq (eat_whitespace l) sk dk) = some (t, l2) →
        WFLexer l2 ∧ l.position ≤ l2.position ∧ l.read_position ≤ l2.read_position := by
      intro sk dk hk
      obtain ⟨h1, h2, h3⟩ := after_read_check_wf_mono hw1 hk
      exact ⟨h1, le_trans hm1 h2, le_trans hm2 h3⟩
    split at heq
    · exact hcmp _ _ heq
    · exact hcmp _ _ heq
    · exact hcmp _ _ heq
    · exact hcmp _ _ heq
    · exact hstep _ heq
    · exact hstep _ heq
    · exact hstep _ heq
    · exact hstep _ heq
    · exact hstep _ heq
    · exact hstep _ heq
    · exact hstep _ heq
    · exact hstep _ heq
    · exact hstep _ heq
    · exact hstep _ heq
    · split at heq
      · cases hid : read_identifier (eat_whitespace l) with
        | none => rw [hid] at heq; cases heq
        | some r =>
          obtain ⟨s, l3⟩ := r
          rw [hid] at heq
          simp only [Option.some.injEq, Prod.mk.injEq] at heq
          obtain ⟨-, rfl⟩ := heq
          obtain ⟨h1, h2, h3⟩ := read_loop_wf_mono hw1 hid
          exact ⟨h1, le_trans hm1 h2, le_trans hm2 h3⟩
      · split at heq
        · cases hdg : read_digit (eat_whitespace l) with
          | none => rw [hdg] at heq; cases heq
          | some r =>
            obtain ⟨s, l3⟩ := r
            rw [hdg] at heq
            simp only [Option.some.injEq, Prod.mk.injEq] at heq
            obtain ⟨-, rfl⟩ := heq
            obtain ⟨h1, h2, h3⟩ := read_loop_wf_mono hw1 hdg
            exact ⟨h1, le_trans hm1 h2, le_trans hm2 h3⟩
        · simp only [Option.some.injEq, Prod.mk.injEq] at heq
          obtain ⟨-, rfl⟩ := heq
          exact ⟨hw1, hm1, hm2⟩

/-- C1: the specification states that produce-next-token never faults, and in
particular that an identifier or digit run extending to the very end of the
input yields the completed token.  The code instead calls `Option::unwrap` on
`current_char` inside `read_identifier` / `read_digit`, which is `None` once
the run reaches the end of the input, so `next_token` panics there (modelled
as `none`): evaluated on `"ab"` (identifier run) and `"12"` (digit run). -/
theorem lexer_faults_on_trailing_run :
    next_token (Lexer.new "ab") = none ∧ next_token (Lexer.new "12") = none := by
  decide

/-- C2: the specification states that each emitted `Illegal` token leaves the
scanner past the offending character, so scanning terminates with
`EndOfInput`.  The `Illegal` arm of `next_token` instead returns before the
trailing `read_char`, leaving the cursor exactly where it was: on input
`"@"` the returned state equals the initial state, and the first four tokens
are all `Illegal("@")` — the sequence never reaches `EndOfInput`. -/
theorem illegal_char_never_consumed :
    next_token (Lexer.new "@") = some (⟨TokenType.Illegal, "@"⟩, Lexer.new "@") ∧
    next_tokens 4 (Lexer.new "@") = some (List.replicate 4 ⟨TokenType.Illegal, "@"⟩) := by
  decide

/-- C7: on an exhausted scanner (no current character remains), produce-next-
token returns `EndOfInput` with the NUL literal and the state unchanged, so
every subsequent call returns `EndOfInput` again. -/
theorem eof_idempotent (l : Lexer) (h : l.current_char = none) :
    next_token l = some (⟨TokenType.EOF, String.mk [Char.ofNat 0]⟩, l) ∧
    ∀ n : Nat, next_tokens n l =
      some (List.replicate n ⟨TokenType.EOF, String.mk [Char.ofNat 0]⟩) := by
  refine ⟨next_token_exhausted h, ?_⟩
  intro n
  induction n with
  | zero => rfl
  | succ k ih => simp [next_tokens, next_token_exhausted h, ih, List.replicate_succ]

/-- Witness for C7 at the empty input. -/
theorem eof_idempotent_witness :
    next_token (Lexer.new "") = some (⟨TokenType.EOF, String.mk [Char.ofNat 0]⟩, Lexer.new "") :=
  (eof_idempotent (Lexer.new "") (by decide)).1

/-- C9: the input `"let five = 5;"` yields exactly the token sequence
Let, Identifier("five"), Assign, IntegerLiteral("5"), Semicolon, EndOfInput,
each literal being the corresponding source substring. -/
theorem let_five_sequence :
    next_tokens 6 (Lexer.new "let five = 5;") =
      some [⟨TokenType.Let, "let"⟩, ⟨TokenType.Ident "five", "five"⟩,
        ⟨TokenType.Assign, "="⟩, ⟨TokenType.Int "5", "5"⟩,
        ⟨TokenType.Semicolon, ";"⟩, ⟨TokenType.EOF, String.mk [Char.ofNat 0]⟩] := by
  decide

/-- C3: at a current character in `= ! < >`, if the immediately following
character is `=` the produced token is the doubled variant (Eq, NotEq, LTE,
GTE) with the exact two-character literal, and otherwise the single-character
variant (Assign, Bang, LT, GT) with the one-character literal. -/
theorem two_char_operator_tokens (l : Lexer) (hwf : WFLexer l) (c : Char)
    (hc : l.current_char = some c)
    (hmem : c ∈ (['=', '!', '<', '>'] : List Char)) :
    (peek_char l = some '=' →
      next_token l = some (⟨cmp_double_kind c, String.mk [c, '=']⟩, read_char (read_char l))) ∧
    (peek_char l ≠ some '=' →
      next_token l = some (⟨cmp_single_kind c, String.mk [c]⟩, read_char l)) ∧
    cmp_double_kind '=' = TokenType.Eq ∧ cmp_double_kind '!' = TokenType.NotEq ∧
    cmp_double_kind '<' = TokenType.LTE ∧ cmp_double_kind '>' = TokenType.GTE ∧
    cmp_single_kind '=' = TokenType.Assign ∧ cmp_single_kind '!' = TokenType.Bang ∧
    cmp_single_kind '<' = TokenType.LT ∧ cmp_single_kind '>' = TokenType.GT :=
  ⟨fun hp => next_token_cmp_double hwf hc hmem hp,
   fun hp => next_token_cmp_single hwf hc hmem hp,
   rfl, rfl, rfl, rfl, rfl, rfl, rfl, rfl⟩

/-- Witness for C3 on the input `"!="`. -/
theorem two_char_operator_tokens_witness :
    next_token (Lexer.new "!=") =
      some (⟨TokenType.NotEq, String.mk ['!', '=']⟩, read_char (read_char (Lexer.new "!="))) :=
  (two_char_operator_tokens (Lexer.new "!=") (by decide) '!' (by decide) (by decide)).1
    (by decide)

/-- C6: at a current character in `+ - / * ; ( ) { } ,`, produce-next-token
returns the token whose category corresponds one-to-one to that character
(the correspondence is injective on the set), its literal is exactly that one
character, and the cursor afterwards points one past the consumed
character. -/
theorem single_char_tokens (l : Lexer) (hwf : WFLexer l) (c : Char)
    (hc : l.current_char = some c)
    (hmem : c ∈ (['+', '-', '/', '*', ';', '(', ')', '\x7b', '\x7d', ','] : List Char)) :
    next_token l = some (⟨single_char_kind c, String.mk [c]⟩, read_char l) ∧
    (read_char l).position = l.position + 1 ∧
    (∀ a ∈ (['+', '-', '/', '*', ';', '(', ')', '\x7b', '\x7d', ','] : List Char),
      ∀ b ∈ (['+', '-', '/', '*', ';', '(', ')', '\x7b', '\x7d', ','] : List Char),
      single_char_kind a = single_char_kind b → a = b) := by
  have hpos : (read_char l).position = l.position + 1 := by
    simp [read_char, hwf.1]
  have hinj : ∀ a ∈ (['+', '-', '/', '*', ';', '(', ')', '\x7b', '\x7d', ','] : List Char),
      ∀ b ∈ (['+', '-', '/', '*', ';', '(', ')', '\x7b', '\x7d', ','] : List Char),
      single_char_kind a = single_char_kind b → a = b := by decide
  fin_cases hmem <;>
    refine ⟨?_, hpos, hinj⟩ <;>
    · have heat : eat_whitespace l = l := eat_whitespace_nonws hwf hc (by decide)
      simp only [next_token, heat, hc, single_char_kind]

/-- Witness for C6 on the input `"+"`. -/
theorem single_char_tokens_witness :
    next_token (Lexer.new "+") =
      some (⟨TokenType.Plus, String.mk ['+']⟩, read_char (Lexer.new "+")) :=
  (single_char_tokens (Lexer.new "+") (by decide) '+' (by decide) (by decide)).1

/-- C10: when one of `= ! < >` is the last character of the input (the peek
past the end yields nothing), produce-next-token does not fault: it returns
the single-character variant (Assign, Bang, LT, GT) with that one character
as literal. -/
theorem cmp_at_end_single (l : Lexer) (hwf : WFLexer l) (c : Char)
    (hc : l.current_char = some c)
    (hmem : c ∈ (['=', '!', '<', '>'] : List Char))
    (hp : peek_char l = none) :
    next_token l = some (⟨cmp_single_kind c, String.mk [c]⟩, read_char l) :=
  next_token_cmp_single hwf hc hmem (by rw [hp]; exact fun h => Option.noConfusion h)

/-- Witness for C10 on the input `"<"`. -/
theorem cmp_at_end_single_witness :
    next_token (Lexer.new "<") =
      some (⟨TokenType.LT, String.mk ['<']⟩, read_char (Lexer.new "<")) :=
  cmp_at_end_single (Lexer.new "<") (by decide) '<' (by decide) (by decide) (by decide)

/-- Counterexample for C4 as stated: the maximal run `"let"` fills the whole
input, and produce-next-token panics (`none`) instead of returning the `Let`
keyword token. -/
theorem identifier_run_at_end_counterexample :
    next_token (Lexer.new "let") = none := by decide

/-- Counterexample for C5 as stated: the maximal digit run `"5"` fills the
whole input, and produce-next-token panics (`none`) instead of returning
`IntegerLiteral("5")`. -/
theorem digit_run_at_end_counterexample :
    next_token (Lexer.new "5") = none := by decide

/-- C4 (amended): for every maximal run of ASCII letters/underscores starting
at the current position that is followed by at least one further character
(it does not extend to the very end of the input), produce-next-token returns
the corresponding keyword variant when the run equals one of `let`, `fn`,
`if`, `else`, `return`, `true`, `false`, and otherwise returns `Identifier`
with literal equal to the full run; a digit ends the run, so digits are not
consumed after the first character. -/
theorem identifier_run_token (l : Lexer) (e : Nat) (hwf : WFLexer l) (c : Char)
    (hc : l.current_char = some c) (hcl : is_letter_or_underscore c = true)
    (hpe : l.position ≤ e) (hel : e < l.input.length)
    (hrun : ∀ i, i < e → l.position ≤ i →
      is_letter_or_underscore (l.input.getD i (Char.ofNat 0)) = true)
    (hmax : is_letter_or_underscore (l.input.getD e (Char.ofNat 0)) = false) :
    next_token l =
      some (⟨lookup_identifier (String.mk ((l.input.drop l.position).take (e - l.position))),
        String.mk ((l.input.drop l.position).take (e - l.position))⟩, lexerAt l.input e) ∧
    lookup_identifier "let" = TokenType.Let ∧
    lookup_identifier "fn" = TokenType.Function ∧
    lookup_identifier "if" = TokenType.If ∧
    lookup_identifier "else" = TokenType.Else ∧
    lookup_identifier "return" = TokenType.Return ∧
    lookup_identifier "true" = TokenType.True ∧
    lookup_identifier "false" = TokenType.False ∧
    (∀ s, s ∉ (["let", "fn", "if", "else", "return", "true", "false"] : List String) →
      lookup_identifier s = TokenType.Ident s) := by
  constructor
  · have hloop : read_identifier l =
        some (String.mk ((l.input.drop l.position).take (e - l.position)), lexerAt l.input e) := by
      have hform := wf_eq_lexerAt hwf
      unfold read_identifier
      conv_lhs => rw [hform]
      exact read_loop_run _ _ _ _ hpe hel hrun hmax
    rw [next_token_default_letter hwf hc hcl, hloop]
  · refine ⟨rfl, rfl, rfl, rfl, rfl, rfl, rfl, ?_⟩
    intro s hs
    unfold lookup_identifier
    split <;> simp_all

/-- Witness for C4 amended on the input `"foo;"` (run `"foo"`, ended by the
non-letter `';'`). -/
theorem identifier_run_token_witness :
    next_token (Lexer.new "foo;") =
      some (⟨TokenType.Ident "foo", "foo"⟩, lexerAt "foo;".data 3) :=
  (identifier_run_token (Lexer.new "foo;") 3 (by decide) 'f' (by decide) (by decide)
    (by decide) (by decide) (by decide) (by decide)).1

/-- C5 (amended): for every maximal run of decimal digits starting at the
current position that is followed by at least one further character (it does
not extend to the very end of the input), produce-next-token returns
`IntegerLiteral` whose literal equals the full run of digits exactly,
including any leading zeros. -/
theorem digit_run_token (l : Lexer) (e : Nat) (hwf : WFLexer l) (c : Char)
    (hc : l.current_char = some c) (hcd : is_digit c = true)
    (hpe : l.position ≤ e) (hel : e < l.input.length)
    (hrun : ∀ i, i < e → l.position ≤ i →
      is_digit (l.input.getD i (Char.ofNat 0)) = true)
    (hmax : is_digit (l.input.getD e (Char.ofNat 0)) = false) :
    next_token l =
      some (⟨TokenType.Int (String.mk ((l.input.drop l.position).take (e - l.position))),
        String.mk ((l.input.drop l.position).take (e - l.position))⟩, lexerAt l.input e) := by
  have hloop : read_digit l =
      some (String.mk ((l.input.drop l.position).take (e - l.position)), lexerAt l.input e) := by
    have hform := wf_eq_lexerAt hwf
    unfold read_digit
    conv_lhs => rw [hform]
    exact read_loop_run _ _ _ _ hpe hel hrun hmax
  rw [next_token_default_digit hwf hc hcd, hloop]

/-- Witness for C5 amended on the input `"007;"`: the literal keeps the
leading zeros. -/
theorem digit_run_token_witness :
    next_token (Lexer.new "007;") =
      some (⟨TokenType.Int "007", "007"⟩, lexerAt "007;".data 3) :=
  digit_run_token (Lexer.new "007;") 3 (by decide) '0' (by decide) (by decide)
    (by decide) (by decide) (by decide) (by decide)

/-- C8: the cursor invariants hold after construction and after every scanner
operation: the read position is the position plus one, the current character
is absent exactly when the position has moved past the end of the input, and
neither position nor read position ever decreases — across `read_char`,
`eat_whitespace`, `read_identifier`, `read_digit` and `next_token` (for the
loops, whenever they return rather than panic). -/
theorem cursor_invariants :
    (∀ s : String, WFLexer (Lexer.new s)) ∧
    (∀ l : Lexer, WFLexer l →
      l.read_position = l.position + 1 ∧
      (l.current_char = none ↔ l.input.length ≤ l.position) ∧
      (WFLexer (read_char l) ∧ l.position ≤ (read_char l).position ∧
        l.read_position ≤ (read_char l).read_position) ∧
      (WFLexer (eat_whitespace l) ∧ l.position ≤ (eat_whitespace l).position ∧
        l.read_position ≤ (eat_whitespace l).read_position) ∧
      (∀ s2 l2, read_identifier l = some (s2, l2) →
        WFLexer l2 ∧ l.position ≤ l2.position ∧ l.read_position ≤ l2.read_position) ∧
      (∀ s2 l2, read_digit l = some (s2, l2) →
        WFLexer l2 ∧ l.position ≤ l2.position ∧ l.read_position ≤ l2.read_position) ∧
      (∀ t l2, next_token l = some (t, l2) →
        WFLexer l2 ∧ l.position ≤ l2.position ∧ l.read_position ≤ l2.read_position)) := by
  refine ⟨wf_new, ?_⟩
  intro l hwf
  refine ⟨hwf.1, ?_, ⟨wf_read_char l, (read_char_mono hwf).1, (read_char_mono hwf).2⟩,
    eat_whitespace_wf_mono l hwf, ?_, ?_, ?_⟩
  · rw [hwf.2]
    exact charAt_none_iff
  · intro s2 l2 h
    exact read_loop_wf_mono hwf h
  · intro s2 l2 h
    exact read_loop_wf_mono hwf h
  · intro t l2 h
    exact next_token_wf_mono hwf h

/-- Witness for C8: the invariant holds concretely after construction and
one advance on the input `"ab"`. -/
theorem cursor_invariants_witness :
    WFLexer (read_char (Lexer.new "ab")) :=
  ((cursor_invariants.2 (Lexer.new "ab") (by decide)).2.2.1).1

end Nipl
